import Mathlib

/-!
Verification of the flaky-detection scoring engine in
`scripts/flaky_from_testomat.py`.

The scoring engine (`compute_trend_and_flaky`), the record normalizer
(`to_row`, `parse_items`) and the `main` control flow are embedded as
executable Lean functions over an explicit record type.  Python's stable
`list.sort(key=...)` is modeled by Mathlib's `List.insertionSort`, which is
stable for a total preorder and therefore extensionally equal to any stable
sort by the same key.  `datetime.fromisoformat` is an external stdlib
collaborator and is taken as a parameter `iso : String → Option Nat`
(timestamps as naturals, `datetime.min` as `0`, the minimum).  The
`statistics` functions are embedded exactly over `ℚ`; the float comparison
`stdev/mean >= 0.6` is embedded in the squared form
`0 < mean ∧ 9*mean^2 ≤ 25*variance`, proved below (`covFires_iff_sqrt`)
to coincide with `Real.sqrt variance / mean ≥ 0.6`.
-/

/-- One CSV row / run record.  `retries` and `duration_ms` carry the parsed
integer values (`int(row.get("retries") or 0)`; empty duration string is
`none`).  `trend_last5`, `is_flaky`, `reasons` are the derived fields. -/
structure Row where
  run_at : String
  run_id : String
  title : String
  status : String
  retries : Int
  duration_ms : Option Int
  trend_last5 : String
  is_flaky : String
  reasons : String
deriving DecidableEq, Repr

/-- The non-derived ("identity") fields of a row. -/
structure BaseRow where
  run_at : String
  run_id : String
  title : String
  status : String
  retries : Int
  duration_ms : Option Int
deriving DecidableEq, Repr

/-- Projection of a row to its non-derived fields. -/
def Row.base (r : Row) : BaseRow :=
  ⟨r.run_at, r.run_id, r.title, r.status, r.retries, r.duration_ms⟩

/-- The pair of fields of a history row that the scoring of a later record
reads: `status` (for the trend glyphs) and `duration_ms` (for R4). -/
def Row.sd (r : Row) : String × Option Int := (r.status, r.duration_ms)

/-- Python `str.lower()` (ASCII case mapping), modeled structurally over the
character list (`String.toLower` is defined by well-founded recursion and
does not reduce in the kernel). -/
def pyLower (s : String) : String := String.mk (s.data.map Char.toLower)

/-- Python `str.strip()`: drop leading and trailing whitespace, modeled
structurally over the character list. -/
def pyStrip (s : String) : String :=
  String.mk (((s.data.dropWhile Char.isWhitespace).reverse.dropWhile
    Char.isWhitespace).reverse)

/-- `status_symbol` from the source: lower-cased status to glyph. -/
def status_symbol (status : String) : String :=
  let s := pyLower status
  if s = "passed" then "✅"
  else if s = "failed" then "❌"
  else "⏭"

/-- Python's `l[-n:]`: the last `n` elements of a list. -/
def lastN (n : Nat) (l : List α) : List α := l.drop (l.length - n)

/-- `statistics.median` on integer data, exactly (sorted middle element, or
the mean of the two middle elements for even length). -/
def medianQ (l : List Int) : ℚ :=
  let s := List.insertionSort (· ≤ ·) l
  let n := s.length
  if n % 2 = 1 then ((s.getD (n / 2) 0 : Int) : ℚ)
  else (((s.getD (n / 2 - 1) 0 + s.getD (n / 2) 0 : Int) : ℚ)) / 2

/-- `statistics.mean` on integer data, exactly. -/
def meanQ (l : List Int) : ℚ := ((l.map (fun (d : Int) => (d : ℚ))).sum) / l.length

/-- The population variance (`statistics.pstdev` squared), exactly. -/
def pvarQ (l : List Int) : ℚ :=
  ((l.map (fun (d : Int) => ((d : ℚ) - meanQ l) ^ 2)).sum) / l.length

/-- Python `max` on a duration list (the engine only calls it on lists of
length ≥ 3). -/
def listMax (l : List Int) : Int := (l.max?).getD 0

/-- `spike = (max(dur_list) / med) if med else 0.0` from the source. -/
def spikeOf (l : List Int) : ℚ :=
  if medianQ l = 0 then 0 else (listMax l : ℚ) / medianQ l

/-- `cov = (std / mean) if mean else 0.0` and the test `cov >= 0.6`, in the
equivalent squared form: `std = sqrt pvar ≥ 0`, so for `mean = 0` the code
takes `cov = 0 < 0.6`; for `mean < 0` we have `cov ≤ 0 < 0.6`; for
`mean > 0`, `sqrt pvar / mean ≥ 3/5 ↔ 9*mean² ≤ 25*pvar`
(theorem `covFires_iff_sqrt`). -/
def covFires (l : List Int) : Bool :=
  decide (0 < meanQ l) && decide (9 * meanQ l ^ 2 ≤ 25 * pvarQ l)

/-- Twice the median of an integer list: the median of integer data is an
integer or a half-integer, so doubling keeps it in `ℤ` (`ℚ` arithmetic does
not reduce in the kernel; this form lets concrete runs evaluate by
`decide`).  `medianQ_eq_medianTwice` proves `medianQ l = medianTwice l / 2`. -/
def medianTwice (l : List Int) : Int :=
  let s := List.insertionSort (· ≤ ·) l
  let n := s.length
  if n % 2 = 1 then 2 * s.getD (n / 2) 0
  else s.getD (n / 2 - 1) 0 + s.getD (n / 2) 0

/-- The test `spike >= 5.0` with the division cleared (sign-split on the
median).  `spikeGE5_iff` proves it equal to `(5 : ℚ) ≤ spikeOf l`. -/
def spikeGE5 (l : List Int) : Bool :=
  if 0 < medianTwice l then decide (5 * medianTwice l ≤ 2 * listMax l)
  else if medianTwice l < 0 then decide (2 * listMax l ≤ 5 * medianTwice l)
  else false

/-- The test `cov >= 0.6` with the divisions cleared:
`mean = S/n`, `pvar = (n·Q − S²)/n²` where `S = Σd`, `Q = Σd²`, so for
`n > 0` the squared test `0 < mean ∧ 9·mean² ≤ 25·pvar` becomes
`0 < S ∧ 9·S² ≤ 25·(n·Q − S²)`.  `covGE06_iff` proves it equal to
`covFires l`, and `covFires_iff_sqrt` relates that to `pstdev/mean ≥ 0.6`. -/
def covGE06 (l : List Int) : Bool :=
  decide (0 < l.sum) &&
    decide (9 * l.sum ^ 2 ≤
      25 * ((l.length : Int) * (l.map (fun d => d * d)).sum - l.sum ^ 2))

/-- The R4 condition `spike >= 5.0 or cov >= 0.6` from the source, in the
kernel-computable form (equal to the literal `ℚ` form by `r4Fires_iff`). -/
def r4Fires (l : List Int) : Bool :=
  spikeGE5 l || covGE06 l

/-- `syms = (prev_syms + [cur_sym])[-5:]` where
`prev_syms = [status_symbol(r["status"]) for r in history][-4:]`. -/
def symsOf (history : List Row) (row : Row) : List String :=
  lastN 5 (lastN 4 (history.map (fun r => status_symbol r.status))
    ++ [status_symbol row.status])

/-- `dur_list`: known durations among the last 4 history rows, then the
current row's duration if known (`history[-4:]` first, filter second). -/
def durListOf (history : List Row) (row : Row) : List Int :=
  ((lastN 4 history).filterMap (fun r => r.duration_ms)) ++ row.duration_ms.toList

/-- The reason literal the code appends when R1 fires. -/
def r1Reason : String := ">1 fail in last5"

/-- The reason literal the code appends when R3 fires. -/
def r3Reason : String := ">1 retry to pass"

/-- The reason literal the code appends when R4 fires. -/
def r4Reason : String := "duration instability"

/-- The `reasons` list accumulated by the three rules, in program order. -/
def reasonsOf (history : List Row) (row : Row) : List String :=
  (if 2 ≤ (symsOf history row).count "❌" then [r1Reason] else [])
    ++ (if pyLower row.status = "passed" ∧ 1 < row.retries then [r3Reason] else [])
    ++ (if 3 ≤ (durListOf history row).length ∧ r4Fires (durListOf history row)
        then [r4Reason] else [])

/-- The `score` accumulated by the three rules (R1 +40, R3 +20, R4 +20). -/
def scoreOf (history : List Row) (row : Row) : Nat :=
  (if 2 ≤ (symsOf history row).count "❌" then 40 else 0)
    + (if pyLower row.status = "passed" ∧ 1 < row.retries then 20 else 0)
    + (if 3 ≤ (durListOf history row).length ∧ r4Fires (durListOf history row)
       then 20 else 0)

/-- Scoring of one record given its title's history: assigns the three
derived fields exactly as the loop body of `compute_trend_and_flaky` does
(`is_flaky = "yes" if score >= 40 or ">1 fail in last5" in reasons`). -/
def scoreRow (history : List Row) (row : Row) : Row :=
  { row with
    trend_last5 := String.join (symsOf history row)
    is_flaky := if 40 ≤ scoreOf history row ∨ r1Reason ∈ reasonsOf history row
                then "yes" else "no"
    reasons := String.intercalate "; " (reasonsOf history row) }

/-- The scoring loop: iterates over the (already sorted) rows, threading the
per-title history map `grouped` (each scored row is appended to its title's
history, as in the source). -/
def scorePass (grouped : String → List Row) : List Row → List Row
  | [] => []
  | row :: rest =>
    let history := grouped row.title
    let scored := scoreRow history row
    scored :: scorePass (fun t => if t = row.title then history ++ [scored]
                                  else grouped t) rest

/-- `s.replace("Z", "+00:00")` from the source, modeled structurally over
the character list (for the single-character pattern `"Z"` this is exactly
Python's `str.replace`; `String.replace` itself is defined by well-founded
recursion and does not reduce in the kernel). -/
def replaceZ (s : String) : String :=
  String.mk (s.data.foldr
    (fun c acc => if c = 'Z' then '+' :: '0' :: '0' :: ':' :: '0' :: '0' :: acc
                  else c :: acc) [])

/-- `parse_dt` from the source: replace `"Z"` with `"+00:00"`, try the
stdlib ISO parse `iso`, return `datetime.min` (modeled as `0`, the minimum
timestamp) on failure. -/
def parse_dt (iso : String → Option Nat) (s : String) : Nat :=
  (iso (replaceZ s)).getD 0

/-- The key order of the first sort: `key=lambda r: (r["title"], parse_dt(r["run_at"]))`. -/
def le1 (iso : String → Option Nat) (a b : Row) : Prop :=
  a.title < b.title ∨ (a.title = b.title ∧ parse_dt iso a.run_at ≤ parse_dt iso b.run_at)

/-- The key order of the final sort: `key=lambda r: parse_dt2(r["run_at"])`. -/
def le2 (iso : String → Option Nat) (a b : Row) : Prop :=
  parse_dt iso a.run_at ≤ parse_dt iso b.run_at

instance (iso : String → Option Nat) : DecidableRel (le1 iso) := fun a b => by
  unfold le1
  have hd : Decidable (a.title < b.title) :=
    decidable_of_iff (a.title.toList < b.title.toList) String.lt_iff_toList_lt.symm
  exact @instDecidableOr _ _ hd inferInstance

instance (iso : String → Option Nat) : DecidableRel (le2 iso) := fun a b => by
  unfold le2; infer_instance

instance (iso : String → Option Nat) : IsTotal Row (le1 iso) := by
  constructor
  intro a b
  unfold le1
  rcases lt_trichotomy a.title b.title with h | h | h
  · exact Or.inl (Or.inl h)
  · rcases Nat.le_total (parse_dt iso a.run_at) (parse_dt iso b.run_at) with h2 | h2
    · exact Or.inl (Or.inr ⟨h, h2⟩)
    · exact Or.inr (Or.inr ⟨h.symm, h2⟩)
  · exact Or.inr (Or.inl h)

instance (iso : String → Option Nat) : IsTrans Row (le1 iso) := by
  constructor
  intro a b c hab hbc
  unfold le1 at *
  rcases hab with h | ⟨he, hn⟩
  · rcases hbc with h2 | ⟨he2, _⟩
    · exact Or.inl (h.trans h2)
    · exact Or.inl (he2 ▸ h)
  · rcases hbc with h2 | ⟨he2, hn2⟩
    · exact Or.inl (he ▸ h2)
    · exact Or.inr ⟨he.trans he2, hn.trans hn2⟩

instance (iso : String → Option Nat) : IsTotal Row (le2 iso) := by
  constructor; intro a b; exact Nat.le_total _ _

instance (iso : String → Option Nat) : IsTrans Row (le2 iso) := by
  constructor; intro a b c; exact Nat.le_trans

/-- `compute_trend_and_flaky` from the source: stable sort by
`(title, parse_dt(run_at))`, one scoring pass with empty initial histories,
then a stable re-sort by `parse_dt(run_at)` alone. -/
def compute_trend_and_flaky (iso : String → Option Nat) (all_rows : List Row) :
    List Row :=
  List.insertionSort (le2 iso)
    (scorePass (fun _ => []) (List.insertionSort (le1 iso) all_rows))

/-! ### Normalizer and `main` control flow

JSON attribute mappings are modeled as association lists of string values
(a numeric JSON value appears via its decimal representation; Python
truthiness of a value is non-emptiness of the string). -/

/-- A JSON `attributes` mapping. -/
abbrev Attrs := List (String × String)

/-- `attr.get(k)`: `none` when the key is absent. -/
def aget (attr : Attrs) (k : String) : Option String :=
  (attr.find? (fun p => p.1 == k)).map (fun p => p.2)

/-- Python `a or b or ... or dflt` over attribute lookups: the first truthy
(present, non-empty) value, else the default literal. -/
def pyOr (vs : List (Option String)) (dflt : String) : String :=
  match vs with
  | [] => dflt
  | v :: rest =>
    match v with
    | some s => if s = "" then pyOr rest dflt else s
    | none => pyOr rest dflt

/-- Digits-only parse of a natural number, structurally. -/
def digitsToNat (l : List Char) : Option Nat :=
  if l.isEmpty then none
  else if l.all Char.isDigit then
    some (l.foldl (fun a c => 10 * a + (c.toNat - 48)) 0)
  else none

/-- Python `int(s)` on a string, `none` when it raises (an optional sign
followed by digits; `String.toInt?` is built on well-founded recursion and
does not reduce in the kernel). -/
def pyInt (s : String) : Option Int :=
  match s.data with
  | Char.ofNat 45 :: rest => (digitsToNat rest).map (fun n => -(n : Int))
  | l => (digitsToNat l).map (fun n => (n : Int))

/-- One element of the items array: a dict that may carry an `attributes`
mapping (`none` models an absent key). -/
structure Item where
  attributes : Option Attrs
deriving DecidableEq, Repr

/-- Truthiness of `it.get("attributes")`: present and non-empty. -/
def attrsTruthy (it : Item) : Bool :=
  match it.attributes with
  | some a => !a.isEmpty
  | none => false

/-- `to_row` from the source: field-name aliasing, Python-`or` fallbacks,
`int(...)` coercion with `except`-to-default, `title` stripped. -/
def to_row (item : Item) : Row :=
  let attr := item.attributes.getD []
  let run_at := pyOr [aget attr "created-at", aget attr "created_at", aget attr "run_at"] ""
  let run_id := pyOr [aget attr "run-id", aget attr "run_id"] ""
  let title := pyStrip (pyOr [aget attr "title"] "")
  let status := pyOr [aget attr "status"] ""
  let retries : Int := (pyInt (pyOr [aget attr "retries"] "0")).getD 0
  let durStr := pyOr [aget attr "run-time", aget attr "duration_ms", aget attr "duration"] ""
  let duration : Option Int := if durStr = "" then none else pyInt durStr
  { run_at := run_at
    run_id := if run_id = "" then run_at else run_id
    title := title
    status := status
    retries := retries
    duration_ms := duration
    trend_last5 := ""
    is_flaky := ""
    reasons := "" }

/-- The recognizable shapes of the loaded JSON document. -/
inductive Doc where
  | dataDict (data : List Item)
  | testsDict (tests : List Attrs)
  | rootList (items : List Attrs)
  | unrecognized
deriving DecidableEq, Repr

/-- `parse_items` from the source: a `data` list is taken as-is, a `tests`
list or a root list is wrapped as `{"attributes": t}`; anything else is a
fatal error (`sys.exit`). -/
def parse_items : Doc → Except String (List Item)
  | .dataDict data => .ok data
  | .testsDict tests => .ok (tests.map (fun t => ⟨some t⟩))
  | .rootList items => .ok (items.map (fun t => ⟨some t⟩))
  | .unrecognized =>
    .error "[ERROR] Could not find items array. Expected 'data' or 'tests'."

/-- The possible states of the input source file. -/
inductive SourceFile where
  | notUtf8
  | invalidJson
  | valid (doc : Doc)
deriving DecidableEq, Repr

/-- `load_json` from the source: fatal error on a non-UTF-8 or non-JSON
file, otherwise the parsed document. -/
def load_json : SourceFile → Except String Doc
  | .notUtf8 => .error "[ERROR] File is not UTF-8 JSON"
  | .invalidJson => .error "[ERROR] Not valid JSON"
  | .valid doc => .ok doc

/-- `new_rows = [to_row(it) for it in items if it.get("attributes")]`. -/
def newRowsOf (items : List Item) : List Row :=
  (items.filter attrsTruthy).map to_row

/-- `main` from the source, as a pure state transformer: takes the input
source and the existing ledger rows, returns the resulting ledger file
content (unchanged when the run aborts) and the run status.  The engine
runs and the ledger is rewritten only after every fatal check has
passed. -/
def runMain (iso : String → Option Nat) (src : SourceFile) (existing : List Row) :
    List Row × Except String Unit :=
  match load_json src with
  | .error e => (existing, .error e)
  | .ok doc =>
    match parse_items doc with
    | .error e => (existing, .error e)
    | .ok items =>
      let new_rows := newRowsOf items
      if new_rows.isEmpty then
        (existing, .error "[ERROR] No test items found to append.")
      else
        (compute_trend_and_flaky iso (existing ++ new_rows), .ok ())

/-! ### Helper lemmas: `scoreRow` -/

theorem scoreRow_base (h : List Row) (r : Row) : (scoreRow h r).base = r.base := rfl

theorem scoreRow_title (h : List Row) (r : Row) : (scoreRow h r).title = r.title := rfl

theorem scoreRow_sd (h : List Row) (r : Row) : (scoreRow h r).sd = r.sd := rfl

theorem map_sd_length {h₁ h₂ : List Row} (hh : h₁.map Row.sd = h₂.map Row.sd) :
    h₁.length = h₂.length := by
  have := congrArg List.length hh
  simpa using this

theorem lastN_map_sd (n : Nat) {h₁ h₂ : List Row}
    (hh : h₁.map Row.sd = h₂.map Row.sd) :
    (lastN n h₁).map Row.sd = (lastN n h₂).map Row.sd := by
  unfold lastN
  rw [List.map_drop, List.map_drop, hh, map_sd_length hh]

theorem symsOf_congr {h₁ h₂ : List Row} (r : Row)
    (hh : h₁.map Row.sd = h₂.map Row.sd) : symsOf h₁ r = symsOf h₂ r := by
  unfold symsOf
  have e : ∀ h : List Row, h.map (fun r => status_symbol r.status)
      = (h.map Row.sd).map (fun p => status_symbol p.1) := by
    intro h; rw [List.map_map]; rfl
  rw [e h₁, e h₂, hh]

theorem durListOf_congr {h₁ h₂ : List Row} (r : Row)
    (hh : h₁.map Row.sd = h₂.map Row.sd) : durListOf h₁ r = durListOf h₂ r := by
  unfold durListOf
  have e : ∀ h : List Row, h.filterMap (fun r => r.duration_ms)
      = (h.map Row.sd).filterMap (fun p => p.2) := by
    intro h; rw [List.filterMap_map]; rfl
  rw [e (lastN 4 h₁), e (lastN 4 h₂), lastN_map_sd 4 hh]

theorem scoreRow_congr {h₁ h₂ : List Row} (r : Row)
    (hh : h₁.map Row.sd = h₂.map Row.sd) : scoreRow h₁ r = scoreRow h₂ r := by
  unfold scoreRow reasonsOf scoreOf
  rw [symsOf_congr r hh, durListOf_congr r hh]

theorem scoreRow_scoreRow (h h' : List Row) (r : Row) :
    scoreRow h (scoreRow h' r) = scoreRow h r := by
  unfold scoreRow reasonsOf scoreOf symsOf durListOf
  rfl

/-! ### Helper lemmas: `scorePass` -/

theorem scorePass_nil (g : String → List Row) : scorePass g [] = [] := rfl

theorem scorePass_cons (g : String → List Row) (row : Row) (rest : List Row) :
    scorePass g (row :: rest) =
      scoreRow (g row.title) row ::
        scorePass (fun t => if t = row.title
                            then g row.title ++ [scoreRow (g row.title) row]
                            else g t) rest := rfl

theorem scorePass_length (g : String → List Row) (l : List Row) :
    (scorePass g l).length = l.length := by
  induction l generalizing g with
  | nil => rfl
  | cons x xs ih => rw [scorePass_cons]; simp [ih]

theorem scorePass_map_base (g : String → List Row) (l : List Row) :
    (scorePass g l).map Row.base = l.map Row.base := by
  induction l generalizing g with
  | nil => rfl
  | cons x xs ih => rw [scorePass_cons]; simp [ih, scoreRow_base]

theorem scorePass_congr {g₁ g₂ : String → List Row} (l : List Row)
    (hg : ∀ t, (g₁ t).map Row.sd = (g₂ t).map Row.sd) :
    scorePass g₁ l = scorePass g₂ l := by
  induction l generalizing g₁ g₂ with
  | nil => rfl
  | cons x xs ih =>
    rw [scorePass_cons, scorePass_cons, scoreRow_congr x (hg x.title)]
    congr 1
    apply ih
    intro t
    by_cases ht : t = x.title
    · subst ht
      simp [hg]
    · simp only [if_neg ht, hg]

theorem scorePass_append (g : String → List Row) (A B : List Row) :
    scorePass g (A ++ B) =
      scorePass g A ++
        scorePass (fun t => g t ++ (scorePass g A).filter (fun r => r.title == t)) B := by
  induction A generalizing g with
  | nil => simp [scorePass_nil]
  | cons x xs ih =>
    simp only [List.cons_append, scorePass_cons]
    rw [ih]
    congr 2
    apply scorePass_congr
    intro t
    apply congrArg
    rw [List.filter_cons]
    by_cases ht : t = x.title
    · subst ht
      have hb : ((scoreRow (g x.title) x).title == x.title) = true := by
        simp [scoreRow_title]
      simp [hb, List.append_assoc]
    · have hb : ¬ ((scoreRow (g x.title) x).title == t) = true := by
        simp only [scoreRow_title, beq_iff_eq]
        exact fun h => ht h.symm
      simp [ht, hb]

/-! ### Helper lemmas: stable sorting -/

theorem filter_insertionSort {α : Type} (r : α → α → Prop) [DecidableRel r] (p : α → Bool)
    (l : List α) (h : (l.filter p).Pairwise r) :
    (List.insertionSort r l).filter p = l.filter p := by
  have hsub : List.Sublist (l.filter p) (List.insertionSort r l) :=
    List.sublist_insertionSort h (List.filter_sublist l)
  have hsub2 : List.Sublist ((l.filter p).filter p) ((List.insertionSort r l).filter p) :=
    hsub.filter p
  have hid : (l.filter p).filter p = l.filter p := by
    rw [List.filter_filter]
    apply List.filter_congr
    intro x _
    cases hp : p x <;> simp [hp]
  rw [hid] at hsub2
  have hlen : ((List.insertionSort r l).filter p).length = (l.filter p).length :=
    ((List.perm_insertionSort r l).filter p).length_eq
  exact (hsub2.eq_of_length hlen.symm).symm

theorem filter_insertionSort_eqkey {α : Type} (r : α → α → Prop) [DecidableRel r] (q : α → Bool)
    (l : List α) (hq : ∀ a b, q a = true → q b = true → r a b) :
    (List.insertionSort r l).filter q = l.filter q := by
  apply filter_insertionSort
  apply List.pairwise_of_forall_mem_list
  intro a ha b hb
  exact hq a b (List.of_mem_filter ha) (List.of_mem_filter hb)

theorem eq_of_sorted_of_filter_eq {α : Type} (key : α → Nat) (X Y : List α)
    (hX : X.Pairwise (fun a b => key a ≤ key b)) (hY : Y.Pairwise (fun a b => key a ≤ key b))
    (h : ∀ k, X.filter (fun x => key x == k) = Y.filter (fun x => key x == k)) : X = Y := by
  induction X generalizing Y with
  | nil =>
    cases Y with
    | nil => rfl
    | cons y Y' =>
      have h1 := h (key y)
      rw [List.filter_cons] at h1
      simp at h1
  | cons x X' ih =>
    cases Y with
    | nil =>
      have h1 := h (key x)
      rw [List.filter_cons] at h1
      simp at h1
    | cons y Y' =>
      have hxy : x = y := by
        by_cases hk : key y = key x
        · have h1 := h (key x)
          rw [List.filter_cons, List.filter_cons] at h1
          rw [if_pos (by simp), if_pos (by simp [hk])] at h1
          exact (List.cons.injEq _ _ _ _ ▸ h1).1
        · have h1 := h (key x)
          rw [List.filter_cons, List.filter_cons] at h1
          rw [if_pos (by simp), if_neg (by simp [hk])] at h1
          have hxY : x ∈ Y' := by
            have hx : x ∈ List.filter (fun z => key z == key x) Y' := by
              rw [← h1]
              exact List.mem_cons_self x _
            exact List.mem_of_mem_filter hx
          have h2 := h (key y)
          rw [List.filter_cons, List.filter_cons] at h2
          have hk2 : ¬ (key x = key y) := fun hh => hk hh.symm
          rw [if_neg (by simp [hk2]), if_pos (by simp)] at h2
          have hyX : y ∈ X' := by
            have hy : y ∈ List.filter (fun z => key z == key y) X' := by
              rw [h2]
              exact List.mem_cons_self y _
            exact List.mem_of_mem_filter hy
          have hle1 : key x ≤ key y := (List.pairwise_cons.mp hX).1 y hyX
          have hle2 : key y ≤ key x := (List.pairwise_cons.mp hY).1 x hxY
          exact absurd (Nat.le_antisymm hle2 hle1) hk
      subst hxy
      congr 1
      apply ih Y' (List.pairwise_cons.mp hX).2 (List.pairwise_cons.mp hY).2
      intro k
      have h1 := h k
      rw [List.filter_cons, List.filter_cons] at h1
      by_cases hk : key x = k
      · rw [if_pos (by simp [hk]), if_pos (by simp [hk])] at h1
        exact (List.cons.injEq _ _ _ _ ▸ h1).2
      · rw [if_neg (by simp [hk]), if_neg (by simp [hk])] at h1
        exact h1

/-! ### Helper lemmas: string lengths and glyphs -/

theorem foldl_append_str (a : String) (l : List String) :
    l.foldl (fun r s => r ++ s) a = a ++ l.foldl (fun r s => r ++ s) "" := by
  induction l generalizing a with
  | nil => simp
  | cons x xs ih =>
    simp only [List.foldl_cons]
    rw [ih (a ++ x), ih ("" ++ x)]
    simp [String.append_assoc]

theorem join_cons_str (s : String) (l : List String) :
    String.join (s :: l) = s ++ String.join l := by
  simp only [String.join, List.foldl_cons]
  rw [foldl_append_str]
  simp

theorem length_join_str (l : List String) :
    (String.join l).length = (l.map String.length).sum := by
  induction l with
  | nil => rfl
  | cons x xs ih => rw [join_cons_str]; simp [String.length_append, ih]

theorem status_symbol_length (s : String) : (status_symbol s).length = 1 := by
  dsimp only [status_symbol]
  split_ifs <;> rfl

theorem lastN_length (n : Nat) (l : List α) : (lastN n l).length = min n l.length := by
  simp [lastN, List.length_drop]
  omega

theorem symsOf_length (h : List Row) (r : Row) :
    (symsOf h r).length = min 5 (h.length + 1) := by
  simp [symsOf, lastN_length]
  omega

theorem symsOf_mem_length (h : List Row) (r : Row) :
    ∀ s ∈ symsOf h r, s.length = 1 := by
  intro s hs
  unfold symsOf lastN at hs
  have hs2 := List.drop_subset _ _ hs
  rcases List.mem_append.mp hs2 with h1 | h1
  · have h2 := List.drop_subset _ _ h1
    rcases List.mem_map.mp h2 with ⟨r', _, hr'⟩
    rw [← hr']
    exact status_symbol_length _
  · rw [List.mem_singleton.mp h1]
    exact status_symbol_length _

theorem scoreRow_trend_length (h : List Row) (r : Row) :
    (scoreRow h r).trend_last5.length = min 5 (h.length + 1) := by
  show (String.join (symsOf h r)).length = _
  rw [length_join_str]
  have he : (symsOf h r).map String.length = (symsOf h r).map (fun _ => 1) :=
    List.map_congr_left (fun s hs => symsOf_mem_length h r s hs)
  rw [he]
  simp [symsOf_length]

/-! ### Helper lemmas: element access in the scoring pass -/

theorem sd_eq_of_base_eq {a b : Row} (h : a.base = b.base) : a.sd = b.sd := by
  have h1 : a.base.status = b.base.status := by rw [h]
  have h2 : a.base.duration_ms = b.base.duration_ms := by rw [h]
  simp only [Row.base] at h1 h2
  simp [Row.sd, h1, h2]

theorem title_eq_of_base_eq {a b : Row} (h : a.base = b.base) : a.title = b.title := by
  have h1 : a.base.title = b.base.title := by rw [h]
  simpa [Row.base] using h1

theorem filter_title_map_sd {l₁ l₂ : List Row} (h : l₁.map Row.base = l₂.map Row.base)
    (t : String) :
    (l₁.filter (fun r => r.title == t)).map Row.sd
      = (l₂.filter (fun r => r.title == t)).map Row.sd := by
  induction l₁ generalizing l₂ with
  | nil =>
    cases l₂ with
    | nil => rfl
    | cons y ys => simp at h
  | cons x xs ih =>
    cases l₂ with
    | nil => simp at h
    | cons y ys =>
      simp only [List.map_cons, List.cons.injEq] at h
      have heq : x.title = y.title := title_eq_of_base_eq h.1
      rw [List.filter_cons, List.filter_cons, heq]
      by_cases ht : y.title == t
      · rw [if_pos (by simp [ht]), if_pos (by simp [ht])]
        simp only [List.map_cons]
        rw [sd_eq_of_base_eq h.1, ih h.2]
      · rw [if_neg (by simp_all), if_neg (by simp_all)]
        exact ih h.2

theorem scorePass_getElem_aux (g : String → List Row) (A B : List Row) (x : Row)
    (hb : A.length < (scorePass g (A ++ x :: B)).length) :
    (scorePass g (A ++ x :: B))[A.length] =
      scoreRow (g x.title ++ A.filter (fun r => r.title == x.title)) x := by
  have h1 : scorePass g (A ++ x :: B)
      = scorePass g A ++ scorePass
          (fun t => g t ++ (scorePass g A).filter (fun r => r.title == t)) (x :: B) :=
    scorePass_append g A (x :: B)
  rw [List.getElem_of_eq h1]
  rw [List.getElem_append_right (by rw [scorePass_length])]
  have hz : A.length - (scorePass g A).length = 0 := by
    rw [scorePass_length]; omega
  simp only [hz, scorePass_cons, List.getElem_cons_zero]
  apply scoreRow_congr
  simp only [List.map_append]
  congr 1
  exact filter_title_map_sd (scorePass_map_base g A) x.title

theorem scorePass_getElem_aux2 (g : String → List Row) (A B : List Row) (x : Row) (i : Nat)
    (hieq : A.length = i) (hb : i < (scorePass g (A ++ x :: B)).length) :
    (scorePass g (A ++ x :: B))[i] =
      scoreRow (g x.title ++ A.filter (fun r => r.title == x.title)) x := by
  subst hieq
  exact scorePass_getElem_aux g A B x hb

theorem scorePass_getElem (g : String → List Row) (X : List Row) (i : Nat)
    (hi : i < X.length) (hb : i < (scorePass g X).length) :
    (scorePass g X)[i] =
      scoreRow (g X[i].title ++ (X.take i).filter (fun r => r.title == X[i].title)) X[i] := by
  have hlen : (X.take i).length = i := by simp [List.length_take]; omega
  have hX : X = X.take i ++ X[i] :: X.drop (i + 1) := by
    conv_lhs => rw [← List.take_append_drop i X]
    rw [List.drop_eq_getElem_cons hi]
  rw [List.getElem_of_eq (congrArg (scorePass g) hX)]
  exact scorePass_getElem_aux2 g (X.take i) (X.drop (i + 1)) X[i] i hlen _

/-! ### Helper lemmas: the R4 coefficient-of-variation test -/

theorem pvarQ_nonneg (l : List Int) : 0 ≤ pvarQ l := by
  unfold pvarQ
  apply div_nonneg
  · apply List.sum_nonneg
    intro x hx
    rcases List.mem_map.mp hx with ⟨d, _, hd⟩
    rw [← hd]
    positivity
  · exact_mod_cast Nat.zero_le _

theorem covFires_iff_sqrt (l : List Int) :
    covFires l = true ↔
      (3 / 5 : ℝ) ≤ (if meanQ l = 0 then (0 : ℝ)
        else Real.sqrt ((pvarQ l : ℚ) : ℝ) / ((meanQ l : ℚ) : ℝ)) := by
  unfold covFires
  by_cases hm : meanQ l = 0
  · rw [if_pos hm]
    simp [hm]
  · rw [if_neg hm]
    rcases lt_trichotomy (meanQ l) 0 with hneg | hz | hpos
    · have hmneg : ((meanQ l : ℚ) : ℝ) < 0 := by exact_mod_cast hneg
      have hx : Real.sqrt ((pvarQ l : ℚ) : ℝ) / ((meanQ l : ℚ) : ℝ) ≤ 0 :=
        div_nonpos_of_nonneg_of_nonpos (Real.sqrt_nonneg _) hmneg.le
      simp only [Bool.and_eq_true, decide_eq_true_eq]
      constructor
      · rintro ⟨h1, _⟩
        exact absurd h1 (not_lt.mpr hneg.le)
      · intro hc
        linarith
    · exact absurd hz hm
    · have hmpos : (0 : ℝ) < ((meanQ l : ℚ) : ℝ) := by exact_mod_cast hpos
      have hv : (0 : ℝ) ≤ ((pvarQ l : ℚ) : ℝ) := by exact_mod_cast pvarQ_nonneg l
      simp only [Bool.and_eq_true, decide_eq_true_eq]
      rw [le_div_iff₀ hmpos, Real.le_sqrt' (by positivity)]
      constructor
      · rintro ⟨_, h2⟩
        have h2r : (9 : ℝ) * ((meanQ l : ℚ) : ℝ) ^ 2 ≤ 25 * ((pvarQ l : ℚ) : ℝ) := by
          exact_mod_cast h2
        nlinarith
      · intro hc
        refine ⟨hpos, ?_⟩
        have h2r : (9 : ℝ) * ((meanQ l : ℚ) : ℝ) ^ 2 ≤ 25 * ((pvarQ l : ℚ) : ℝ) := by
          nlinarith
        exact_mod_cast h2r

/-! ### Helper lemmas: the integer forms of the R4 tests -/

theorem medianQ_eq_medianTwice (l : List Int) :
    medianQ l = (medianTwice l : ℚ) / 2 := by
  unfold medianQ medianTwice
  by_cases h : (List.insertionSort (· ≤ ·) l).length % 2 = 1
  · rw [if_pos h, if_pos h]
    push_cast
    ring_nf
  · rw [if_neg h, if_neg h]

theorem medianQ_ne_zero_of_medianTwice {l : List Int} (h : medianTwice l ≠ 0) :
    medianQ l ≠ 0 := by
  rw [medianQ_eq_medianTwice]
  intro hc
  rw [div_eq_zero_iff] at hc
  rcases hc with hc | hc
  · exact h (by exact_mod_cast hc)
  · norm_num at hc

theorem spikeGE5_iff (l : List Int) :
    spikeGE5 l = true ↔ (5 : ℚ) ≤ spikeOf l := by
  unfold spikeGE5 spikeOf
  rcases lt_trichotomy (medianTwice l) 0 with hneg | hz | hpos
  · rw [if_neg (by omega), if_pos hneg,
      if_neg (medianQ_ne_zero_of_medianTwice (by omega)), medianQ_eq_medianTwice]
    have hql : ((medianTwice l : Int) : ℚ) < 0 := by exact_mod_cast hneg
    rw [le_div_iff_of_neg (by linarith)]
    simp only [decide_eq_true_eq]
    constructor
    · intro h
      have hc : ((2 * listMax l : Int) : ℚ) ≤ ((5 * medianTwice l : Int) : ℚ) := by
        exact_mod_cast h
      push_cast at hc
      linarith
    · intro h
      have hc : ((2 * listMax l : Int) : ℚ) ≤ ((5 * medianTwice l : Int) : ℚ) := by
        push_cast
        linarith
      exact_mod_cast hc
  · rw [if_neg (by omega), if_neg (by omega),
      if_pos (by rw [medianQ_eq_medianTwice, hz]; norm_num)]
    simp
  · rw [if_pos hpos,
      if_neg (medianQ_ne_zero_of_medianTwice (by omega)), medianQ_eq_medianTwice]
    have hql : (0 : ℚ) < ((medianTwice l : Int) : ℚ) := by exact_mod_cast hpos
    rw [le_div_iff₀ (by linarith)]
    simp only [decide_eq_true_eq]
    constructor
    · intro h
      have hc : ((5 * medianTwice l : Int) : ℚ) ≤ ((2 * listMax l : Int) : ℚ) := by
        exact_mod_cast h
      push_cast at hc
      linarith
    · intro h
      have hc : ((5 * medianTwice l : Int) : ℚ) ≤ ((2 * listMax l : Int) : ℚ) := by
        push_cast
        linarith
      exact_mod_cast hc

theorem sum_map_ratCast (l : List Int) :
    (l.map (fun (d : Int) => (d : ℚ))).sum = ((l.sum : Int) : ℚ) := by
  induction l with
  | nil => simp
  | cons x xs ih =>
    simp only [List.map_cons, List.sum_cons, ih]
    exact (Int.cast_add x xs.sum).symm

theorem sum_map_sq_ratCast (l : List Int) :
    (l.map (fun (d : Int) => ((d : ℚ)) ^ 2)).sum = (((l.map (fun (d : Int) => d * d)).sum : Int) : ℚ) := by
  induction l with
  | nil => simp
  | cons x xs ih =>
    simp only [List.map_cons, List.sum_cons, ih]
    rw [Int.cast_add, Int.cast_mul]
    ring

theorem sum_sq_dev (μ : ℚ) (l : List Int) :
    (l.map (fun (d : Int) => ((d : ℚ) - μ) ^ 2)).sum
      = (l.map (fun (d : Int) => ((d : ℚ)) ^ 2)).sum - 2 * μ * ((l.sum : Int) : ℚ)
        + l.length * μ ^ 2 := by
  induction l with
  | nil => simp
  | cons x xs ih =>
    simp only [List.map_cons, List.sum_cons, ih, List.length_cons]
    rw [Int.cast_add]
    push_cast
    ring

theorem pvarQ_eq (l : List Int) (hn : l.length ≠ 0) :
    pvarQ l = ((((l.length : Int) * (l.map (fun (d : Int) => d * d)).sum
        - l.sum ^ 2 : Int)) : ℚ) / ((l.length : ℚ)) ^ 2 := by
  have hnq : (l.length : ℚ) ≠ 0 := by exact_mod_cast hn
  unfold pvarQ
  rw [sum_sq_dev (meanQ l) l, sum_map_sq_ratCast]
  unfold meanQ
  rw [sum_map_ratCast]
  push_cast
  field_simp
  ring

theorem covGE06_eq_covFires (l : List Int) : covGE06 l = covFires l := by
  unfold covGE06 covFires
  rcases Nat.eq_zero_or_pos l.length with hn | hn
  · have hl : l = [] := List.eq_nil_of_length_eq_zero hn
    subst hl
    simp [meanQ]
  · have hnq : (0 : ℚ) < (l.length : ℚ) := by exact_mod_cast hn
    have hmean : meanQ l = ((l.sum : Int) : ℚ) / (l.length : ℚ) := by
      unfold meanQ; rw [sum_map_ratCast]
    have h1 : (0 < l.sum) ↔ (0 < meanQ l) := by
      rw [hmean]
      constructor
      · intro h
        exact div_pos (by exact_mod_cast h) hnq
      · intro h
        by_contra hc
        push_neg at hc
        have hc2 : ((l.sum : Int) : ℚ) ≤ 0 := by exact_mod_cast hc
        have hc3 := div_nonpos_of_nonpos_of_nonneg hc2 hnq.le
        linarith
    have h2 : (9 * l.sum ^ 2
          ≤ 25 * ((l.length : Int) * (l.map (fun d => d * d)).sum - l.sum ^ 2))
        ↔ (9 * meanQ l ^ 2 ≤ 25 * pvarQ l) := by
      rw [hmean, pvarQ_eq l (by omega), div_pow, ← mul_div_assoc, ← mul_div_assoc,
        div_le_div_iff₀ (by positivity) (by positivity),
        mul_le_mul_right (by positivity : (0 : ℚ) < (l.length : ℚ) ^ 2)]
      constructor
      · intro h
        have hc : ((9 * l.sum ^ 2 : Int) : ℚ)
            ≤ ((25 * ((l.length : Int) * (l.map (fun d => d * d)).sum - l.sum ^ 2) : Int) : ℚ) := by
          exact_mod_cast h
        push_cast at hc ⊢
        linarith
      · intro h
        have hc : ((9 * l.sum ^ 2 : Int) : ℚ)
            ≤ ((25 * ((l.length : Int) * (l.map (fun d => d * d)).sum - l.sum ^ 2) : Int) : ℚ) := by
          push_cast at h ⊢
          linarith
        exact_mod_cast hc
    rw [decide_eq_decide.mpr h1, decide_eq_decide.mpr h2]

/-- The R4 condition in its literal form: `spike >= 5.0 or cov >= 0.6`. -/
theorem r4Fires_iff (l : List Int) :
    r4Fires l = true ↔ ((5 : ℚ) ≤ spikeOf l ∨ covFires l = true) := by
  unfold r4Fires
  rw [Bool.or_eq_true, spikeGE5_iff, covGE06_eq_covFires]

/-! ### Shared concrete inputs -/

/-- A stdlib ISO parser stub that fails on every string: every timestamp
collapses to the sentinel, so both sorts are stable no-ops and the input
order is the chronological order. -/
def isoNone : String → Option Nat := fun _ => none

/-- A fresh input row, as the normalizer produces it. -/
def mkRow (ttl st : String) (ret : Int) (dur : Option Int) : Row :=
  { run_at := "", run_id := "", title := ttl, status := st, retries := ret,
    duration_ms := dur, trend_last5 := "", is_flaky := "", reasons := "" }

/-! ### Helper lemmas: reason-list membership -/

theorem r1Reason_mem_reasonsOf (h : List Row) (r : Row) :
    r1Reason ∈ reasonsOf h r ↔ 2 ≤ (symsOf h r).count "❌" := by
  unfold reasonsOf
  by_cases h1 : 2 ≤ (symsOf h r).count "❌" <;>
    by_cases h2 : pyLower r.status = "passed" ∧ 1 < r.retries <;>
      by_cases h3 : 3 ≤ (durListOf h r).length ∧ r4Fires (durListOf h r) = true <;>
        simp [h1, h2, h3, r1Reason, r3Reason, r4Reason]

theorem r4Reason_mem_reasonsOf (h : List Row) (r : Row) :
    r4Reason ∈ reasonsOf h r ↔
      3 ≤ (durListOf h r).length ∧ r4Fires (durListOf h r) = true := by
  unfold reasonsOf
  by_cases h1 : 2 ≤ (symsOf h r).count "❌" <;>
    by_cases h2 : pyLower r.status = "passed" ∧ 1 < r.retries <;>
      by_cases h3 : 3 ≤ (durListOf h r).length ∧ r4Fires (durListOf h r) = true <;>
        simp [h1, h2, h3, r1Reason, r3Reason, r4Reason]

/-! ### C1 -/

/-- C1: a scored record's `is_flaky` is `"yes"` exactly when its total score
is ≥ 40 or rule R1 fired (≥ 2 fail glyphs in the 5-glyph trend).  In
particular, a record where R3 and R4 both fire with R1 false (score 40)
gets `"yes"`, and a single `"passed"` record with `retries = 2` (only R3,
score 20) gets `"no"`. -/
theorem C1_is_flaky_verdict :
    (∀ (h : List Row) (r : Row),
        (scoreRow h r).is_flaky =
          if 40 ≤ scoreOf h r ∨ 2 ≤ (symsOf h r).count "❌" then "yes" else "no")
    ∧ (compute_trend_and_flaky isoNone
        [mkRow "T" "passed" 0 (some 100), mkRow "T" "passed" 0 (some 100),
         mkRow "T" "passed" 2 (some 600)]).map (fun r => (r.is_flaky, r.reasons))
        = [("no", ""), ("no", ""), ("yes", ">1 retry to pass; duration instability")]
    ∧ (compute_trend_and_flaky isoNone [mkRow "T" "passed" 2 none]).map
        (fun r => (r.is_flaky, r.reasons)) = [("no", ">1 retry to pass")] := by
  refine ⟨?_, by decide, by decide⟩
  intro h r
  show (if 40 ≤ scoreOf h r ∨ r1Reason ∈ reasonsOf h r then "yes" else "no") = _
  exact if_congr (or_congr Iff.rfl (r1Reason_mem_reasonsOf h r)) rfl rfl

/-! ### C5 -/

/-- C5 counterexample: in the R1 scenario [fail, fail, pass, pass, pass]
the 5th record's trend has 2 fail glyphs and R1 fires (it is flaky), but
the reason literal the code appends is `">1 fail in last5"`, not the
`"≥2 fails in last 5"` the claim states; no record carries the claimed
string. -/
theorem C5_reason_literal_counterexample :
    (compute_trend_and_flaky isoNone
        [mkRow "T" "failed" 0 none, mkRow "T" "failed" 0 none,
         mkRow "T" "passed" 0 none, mkRow "T" "passed" 0 none,
         mkRow "T" "passed" 0 none]).map (fun r => (r.trend_last5, r.is_flaky, r.reasons))
      = [("❌", "no", ""), ("❌❌", "yes", ">1 fail in last5"),
         ("❌❌✅", "yes", ">1 fail in last5"), ("❌❌✅✅", "yes", ">1 fail in last5"),
         ("❌❌✅✅✅", "yes", ">1 fail in last5")]
    ∧ (">1 fail in last5" : String) ≠ "≥2 fails in last 5"
    ∧ (compute_trend_and_flaky isoNone
        [mkRow "T" "failed" 0 none, mkRow "T" "failed" 0 none,
         mkRow "T" "passed" 0 none, mkRow "T" "passed" 0 none,
         mkRow "T" "passed" 0 none]).all
        (fun r => !(r.reasons == "≥2 fails in last 5")) = true := by
  refine ⟨by decide, by decide, by decide⟩

/-- C5 amended: whenever R1 fires (≥ 2 fail glyphs in the 5-glyph trend)
the engine adds 40 to the score and the reason literal `">1 fail in last5"`
to the reasons list; for [fail, fail, pass, pass, pass] the 5th record's
reasons contains `">1 fail in last5"`. -/
theorem C5_r1_reason_amended :
    (∀ (h : List Row) (r : Row), 2 ≤ (symsOf h r).count "❌" →
        40 ≤ scoreOf h r ∧ r1Reason ∈ reasonsOf h r ∧ (scoreRow h r).is_flaky = "yes")
    ∧ (compute_trend_and_flaky isoNone
        [mkRow "T" "failed" 0 none, mkRow "T" "failed" 0 none,
         mkRow "T" "passed" 0 none, mkRow "T" "passed" 0 none,
         mkRow "T" "passed" 0 none]).map (fun r => r.reasons)
      = ["", ">1 fail in last5", ">1 fail in last5", ">1 fail in last5",
         ">1 fail in last5"] := by
  refine ⟨?_, by decide⟩
  intro h r h1
  have hsc : 40 ≤ scoreOf h r := by
    unfold scoreOf
    rw [if_pos h1]
    omega
  refine ⟨hsc, (r1Reason_mem_reasonsOf h r).mpr h1, ?_⟩
  show (if 40 ≤ scoreOf h r ∨ r1Reason ∈ reasonsOf h r then "yes" else "no") = "yes"
  rw [if_pos (Or.inl hsc)]

/-- Witness for `C5_r1_reason_amended` at a concrete history and record. -/
theorem C5_r1_reason_amended_witness :
    40 ≤ scoreOf [mkRow "T" "failed" 0 none, mkRow "T" "failed" 0 none]
        (mkRow "T" "passed" 0 none)
    ∧ r1Reason ∈ reasonsOf [mkRow "T" "failed" 0 none, mkRow "T" "failed" 0 none]
        (mkRow "T" "passed" 0 none)
    ∧ (scoreRow [mkRow "T" "failed" 0 none, mkRow "T" "failed" 0 none]
        (mkRow "T" "passed" 0 none)).is_flaky = "yes" :=
  C5_r1_reason_amended.1 [mkRow "T" "failed" 0 none, mkRow "T" "failed" 0 none]
    (mkRow "T" "passed" 0 none) (by decide)

/-! ### C7 -/

/-- C7: for a record whose duration list (known durations among the last 4
history rows plus its own known duration) has at least 3 elements, R4 adds
the reason `"duration instability"` exactly when `max(dur)/median ≥ 5.0`
(0 when the median is 0) or `pstdev/mean ≥ 0.6` (0 when the mean is 0);
for durations [100, 100, 600] the median is 100 and the spike 6 ≥ 5, so
the 3rd record's reasons contains `"duration instability"`. -/
theorem C7_r4_duration_rule :
    (∀ (h : List Row) (r : Row), 3 ≤ (durListOf h r).length →
        (r4Reason ∈ reasonsOf h r ↔
          ((5 : ℚ) ≤ spikeOf (durListOf h r)
            ∨ (3 / 5 : ℝ) ≤ (if meanQ (durListOf h r) = 0 then (0 : ℝ)
                else Real.sqrt ((pvarQ (durListOf h r) : ℚ) : ℝ)
                  / ((meanQ (durListOf h r) : ℚ) : ℝ)))))
    ∧ medianQ [100, 100, 600] = 100
    ∧ spikeOf [100, 100, 600] = 6
    ∧ (compute_trend_and_flaky isoNone
        [mkRow "T" "passed" 0 (some 100), mkRow "T" "passed" 0 (some 100),
         mkRow "T" "passed" 0 (some 600)]).map (fun r => r.reasons)
      = ["", "", "duration instability"] := by
  have hm : medianTwice [100, 100, 600] = 200 := by decide
  have hmax : listMax [100, 100, 600] = 600 := by decide
  refine ⟨?_, ?_, ?_, by decide⟩
  · intro h r hlen
    rw [r4Reason_mem_reasonsOf]
    constructor
    · rintro ⟨_, h4⟩
      rcases (r4Fires_iff _).mp h4 with h5 | h5
      · exact Or.inl h5
      · exact Or.inr ((covFires_iff_sqrt _).mp h5)
    · intro hc
      refine ⟨hlen, (r4Fires_iff _).mpr ?_⟩
      rcases hc with h5 | h5
      · exact Or.inl h5
      · exact Or.inr ((covFires_iff_sqrt _).mpr h5)
  · rw [medianQ_eq_medianTwice, hm]
    norm_num
  · unfold spikeOf
    rw [medianQ_eq_medianTwice, hm, hmax]
    norm_num

/-- Witness for `C7_r4_duration_rule` at the concrete [100, 100, 600]
scenario. -/
theorem C7_r4_duration_rule_witness :
    r4Reason ∈ reasonsOf
        [mkRow "T" "passed" 0 (some 100), mkRow "T" "passed" 0 (some 100)]
        (mkRow "T" "passed" 0 (some 600)) ↔
      ((5 : ℚ) ≤ spikeOf (durListOf
          [mkRow "T" "passed" 0 (some 100), mkRow "T" "passed" 0 (some 100)]
          (mkRow "T" "passed" 0 (some 600)))
        ∨ (3 / 5 : ℝ) ≤ (if meanQ (durListOf
              [mkRow "T" "passed" 0 (some 100), mkRow "T" "passed" 0 (some 100)]
              (mkRow "T" "passed" 0 (some 600))) = 0 then (0 : ℝ)
            else Real.sqrt ((pvarQ (durListOf
                [mkRow "T" "passed" 0 (some 100), mkRow "T" "passed" 0 (some 100)]
                (mkRow "T" "passed" 0 (some 600))) : ℚ) : ℝ)
              / ((meanQ (durListOf
                [mkRow "T" "passed" 0 (some 100), mkRow "T" "passed" 0 (some 100)]
                (mkRow "T" "passed" 0 (some 600))) : ℚ) : ℝ))) :=
  C7_r4_duration_rule.1
    [mkRow "T" "passed" 0 (some 100), mkRow "T" "passed" 0 (some 100)]
    (mkRow "T" "passed" 0 (some 600)) (by decide)

/-! ### C10 -/

/-- History with two old known durations followed by four unknown-duration
rows (the last-4 window). -/
def exHistC10 : List Row :=
  [mkRow "T" "passed" 0 (some 100), mkRow "T" "passed" 0 (some 200),
   mkRow "T" "passed" 0 none, mkRow "T" "passed" 0 none,
   mkRow "T" "passed" 0 none, mkRow "T" "passed" 0 none]

/-- C10: the duration list is built window-then-filter: the engine takes
the last 4 history rows regardless of whether their durations are known,
keeps the known ones, then appends the current row's known duration; a
known duration more than 4 rows back is never consulted, and a last-4
window of unknown durations starves R4 even though older known durations
exist. -/
theorem C10_durList_window_then_filter :
    (∀ (h : List Row) (r : Row),
        durListOf h r = ((lastN 4 h).filterMap (fun x => x.duration_ms))
          ++ r.duration_ms.toList)
    ∧ (∀ (pre h : List Row) (r : Row), 4 ≤ h.length →
        durListOf (pre ++ h) r = durListOf h r)
    ∧ (exHistC10.filterMap (fun x => x.duration_ms) = [100, 200]
        ∧ durListOf exHistC10 (mkRow "T" "passed" 0 (some 600)) = [600]
        ∧ reasonsOf exHistC10 (mkRow "T" "passed" 0 (some 600)) = []) := by
  refine ⟨fun h r => rfl, ?_, by decide⟩
  intro pre h r h4
  unfold durListOf lastN
  have hd : (pre ++ h).drop ((pre ++ h).length - 4) = h.drop (h.length - 4) := by
    have hlen : (pre ++ h).length - 4 = pre.length + (h.length - 4) := by
      simp only [List.length_append]
      omega
    rw [hlen, List.drop_append]
  rw [hd]

/-- Witness for `C10_durList_window_then_filter` at a concrete split
history. -/
theorem C10_durList_window_then_filter_witness :
    durListOf ([mkRow "T" "passed" 0 (some 100), mkRow "T" "passed" 0 (some 200)]
        ++ [mkRow "T" "passed" 0 none, mkRow "T" "passed" 0 none,
            mkRow "T" "passed" 0 none, mkRow "T" "passed" 0 none])
        (mkRow "T" "passed" 0 (some 600))
      = durListOf [mkRow "T" "passed" 0 none, mkRow "T" "passed" 0 none,
            mkRow "T" "passed" 0 none, mkRow "T" "passed" 0 none]
        (mkRow "T" "passed" 0 (some 600)) :=
  C10_durList_window_then_filter.2.1
    [mkRow "T" "passed" 0 (some 100), mkRow "T" "passed" 0 (some 200)]
    [mkRow "T" "passed" 0 none, mkRow "T" "passed" 0 none,
     mkRow "T" "passed" 0 none, mkRow "T" "passed" 0 none]
    (mkRow "T" "passed" 0 (some 600)) (by decide)

/-! ### C6 -/

/-- C6 counterexample: `main` filters items only on a truthy `attributes`
mapping; an item whose attributes carry no title is kept, `to_row` gives it
the empty title, and the scored, persisted ledger contains a record whose
title is `""`. -/
theorem C6_empty_title_counterexample :
    attrsTruthy ⟨some [("status", "passed")]⟩ = true
    ∧ (to_row ⟨some [("status", "passed")]⟩).title = ""
    ∧ (runMain isoNone (.valid (.dataDict [⟨some [("status", "passed")]⟩])) []).1.map
        (fun r => (r.title, r.is_flaky)) = [("", "no")]
    ∧ (runMain isoNone (.valid (.dataDict [⟨some [("status", "passed")]⟩])) []).2.isOk
        = true := by
  refine ⟨by decide, by decide, by decide, by decide⟩

/-- C6 amended: items are excluded before scoring only when their
`attributes` mapping is missing or empty; an item with a non-empty
attributes mapping whose title is missing, empty, or whitespace-only is
normalized to the empty title and is scored and persisted like any other
record. -/
theorem C6_title_handling_amended :
    (∀ it : Item, attrsTruthy it = false ↔
        (it.attributes = none ∨ it.attributes = some []))
    ∧ (∀ a : Attrs, (aget a "title" = none ∨ aget a "title" = some "") →
        (to_row ⟨some a⟩).title = "")
    ∧ (∀ (a : Attrs) (w : String), aget a "title" = some w →
        w.data.all Char.isWhitespace = true → (to_row ⟨some a⟩).title = "")
    ∧ (runMain isoNone (.valid (.dataDict [⟨some [("status", "passed")]⟩])) []).1.map
        (fun r => r.title) = [""]
    ∧ (runMain isoNone
        (.valid (.dataDict [⟨some [("title", ""), ("status", "passed")]⟩])) []).1.map
        (fun r => r.title) = [""]
    ∧ (runMain isoNone
        (.valid (.dataDict [⟨some [("title", "  "), ("status", "passed")]⟩])) []).1.map
        (fun r => r.title) = [""] := by
  refine ⟨?_, ?_, ?_, by decide, by decide, by decide⟩
  · intro it
    cases hat : it.attributes with
    | none => simp [attrsTruthy, hat]
    | some a =>
      cases a with
      | nil => simp [attrsTruthy, hat]
      | cons p rest => simp [attrsTruthy, hat]
  · intro a ha
    rcases ha with ha | ha
    · show pyStrip (pyOr [aget a "title"] "") = ""
      rw [ha]
      rfl
    · show pyStrip (pyOr [aget a "title"] "") = ""
      rw [ha]
      rfl
  · intro a w hw hws
    show pyStrip (pyOr [aget a "title"] "") = ""
    rw [hw]
    by_cases hwe : w = ""
    · subst hwe
      rfl
    · show pyStrip (if w = "" then pyOr [] "" else w) = ""
      rw [if_neg hwe]
      unfold pyStrip
      have hnil : w.data.dropWhile Char.isWhitespace = [] :=
        List.dropWhile_eq_nil_iff.mpr (List.all_eq_true.mp hws)
      rw [hnil]
      rfl

/-- Witness for `C6_title_handling_amended` at concrete attribute
mappings with an empty, a missing, and a whitespace-only title. -/
theorem C6_title_handling_amended_witness :
    (to_row ⟨some [("title", ""), ("status", "passed")]⟩).title = ""
    ∧ (to_row ⟨some [("status", "passed")]⟩).title = ""
    ∧ (to_row ⟨some [("title", "  "), ("status", "passed")]⟩).title = "" :=
  ⟨C6_title_handling_amended.2.1 [("title", ""), ("status", "passed")]
      (Or.inr (by decide)),
   C6_title_handling_amended.2.1 [("status", "passed")] (Or.inl (by decide)),
   C6_title_handling_amended.2.2.1 [("title", "  "), ("status", "passed")] "  "
      (by decide) (by decide)⟩

/-! ### C8 -/

/-- C8: each fatal input condition — unreadable/unparseable source, no
recognizable record collection, or an empty filtered new-record set —
makes `main` abort with an error before the scoring engine runs, leaving
the existing ledger content untouched. -/
theorem C8_fatal_errors_atomic :
    ∀ (iso : String → Option Nat) (src : SourceFile) (existing : List Row),
      ((∃ e, load_json src = .error e) →
        (runMain iso src existing).1 = existing
          ∧ (runMain iso src existing).2.isOk = false)
      ∧ (∀ doc, load_json src = .ok doc → (∃ e, parse_items doc = .error e) →
          (runMain iso src existing).1 = existing
            ∧ (runMain iso src existing).2.isOk = false)
      ∧ (∀ doc items, load_json src = .ok doc → parse_items doc = .ok items →
          newRowsOf items = [] →
          (runMain iso src existing).1 = existing
            ∧ (runMain iso src existing).2.isOk = false) := by
  intro iso src existing
  refine ⟨?_, ?_, ?_⟩
  · rintro ⟨e, he⟩
    unfold runMain
    rw [he]
    exact ⟨rfl, rfl⟩
  · rintro doc hdoc ⟨e, he⟩
    unfold runMain
    rw [hdoc]
    dsimp only
    rw [he]
    exact ⟨rfl, rfl⟩
  · intro doc items hdoc hitems hempty
    unfold runMain
    rw [hdoc]
    dsimp only
    rw [hitems]
    dsimp only
    rw [hempty]
    exact ⟨rfl, rfl⟩

/-- Witness for `C8_fatal_errors_atomic`: a non-UTF-8 source leaves a
non-empty existing ledger unchanged and reports an error. -/
theorem C8_fatal_errors_atomic_witness :
    (runMain isoNone .notUtf8 [mkRow "T" "passed" 0 none]).1
        = [mkRow "T" "passed" 0 none]
    ∧ (runMain isoNone .notUtf8 [mkRow "T" "passed" 0 none]).2.isOk = false :=
  (C8_fatal_errors_atomic isoNone .notUtf8 [mkRow "T" "passed" 0 none]).1
    ⟨"[ERROR] File is not UTF-8 JSON", rfl⟩

/-! ### C9 -/

/-- C9: after scoring, a record's `trend_last5` is a glyph string of length
exactly `min 5 n`, where `n` is the number of records of its title up to
and including it in the per-title chronological (scoring) order — never
empty, never padded — and every output record's `is_flaky` is exactly
`"yes"` or `"no"`. -/
theorem C9_trend_length_invariant :
    (∀ (iso : String → Option Nat) (l : List Row) (i : Nat)
        (hi : i < (List.insertionSort (le1 iso) l).length)
        (hb : i < (scorePass (fun _ => []) (List.insertionSort (le1 iso) l)).length),
        (scorePass (fun _ => []) (List.insertionSort (le1 iso) l))[i].trend_last5.length
          = min 5 ((((List.insertionSort (le1 iso) l).take i).filter
              (fun r => r.title == (List.insertionSort (le1 iso) l)[i].title)).length + 1))
    ∧ (∀ (iso : String → Option Nat) (l : List Row) (r : Row),
        r ∈ compute_trend_and_flaky iso l →
          1 ≤ r.trend_last5.length ∧ r.trend_last5.length ≤ 5
            ∧ (r.is_flaky = "yes" ∨ r.is_flaky = "no")) := by
  constructor
  · intro iso l i hi hb
    rw [scorePass_getElem _ _ i hi hb, scoreRow_trend_length]
    simp
  · intro iso l r hr
    rw [compute_trend_and_flaky, List.mem_insertionSort] at hr
    rcases List.mem_iff_getElem.mp hr with ⟨i, hlen, hget⟩
    have hi : i < (List.insertionSort (le1 iso) l).length := by
      have := scorePass_length (fun _ => []) (List.insertionSort (le1 iso) l)
      omega
    rw [← hget, scorePass_getElem _ _ i hi hlen, scoreRow_trend_length]
    refine ⟨by omega, by omega, ?_⟩
    show (if _ then "yes" else "no") = "yes" ∨ (if _ then "yes" else "no") = "no"
    exact ite_eq_or_eq _ _ _

/-- Witness for `C9_trend_length_invariant` on a concrete single-record
run. -/
theorem C9_trend_length_invariant_witness :
    1 ≤ ((compute_trend_and_flaky isoNone [mkRow "T" "passed" 0 none]).headD
        (mkRow "T" "passed" 0 none)).trend_last5.length
    ∧ ((compute_trend_and_flaky isoNone [mkRow "T" "passed" 0 none]).headD
        (mkRow "T" "passed" 0 none)).trend_last5.length ≤ 5
    ∧ (((compute_trend_and_flaky isoNone [mkRow "T" "passed" 0 none]).headD
          (mkRow "T" "passed" 0 none)).is_flaky = "yes"
        ∨ ((compute_trend_and_flaky isoNone [mkRow "T" "passed" 0 none]).headD
          (mkRow "T" "passed" 0 none)).is_flaky = "no") :=
  C9_trend_length_invariant.2 isoNone [mkRow "T" "passed" 0 none] _ (by decide)

/-! ### C2 -/

/-- C2: no-lookahead.  Fix a record `R` at position `i` of the engine's
per-title chronological order (the `(title, run_at)`-sorted list `s`).
Replace everything after `R` by any sublist `t` of the later records —
in particular one with the chronologically-later same-title records
removed.  Then (1) the truncated input `s.take (i+1) ++ t` is already in
engine order, so a full engine run sorts it to itself, (2) the scoring
pass assigns `R` exactly the same scored record as in the full run, and
(3) that identical record appears in the final output of both runs. -/
theorem C2_no_lookahead :
    ∀ (iso : String → Option Nat) (l : List Row) (i : Nat)
      (hi : i < (List.insertionSort (le1 iso) l).length)
      (t : List Row)
      (ht : List.Sublist t ((List.insertionSort (le1 iso) l).drop (i + 1))),
      List.insertionSort (le1 iso)
          ((List.insertionSort (le1 iso) l).take (i + 1) ++ t)
        = (List.insertionSort (le1 iso) l).take (i + 1) ++ t
      ∧ (∀ (hb1 : i < (scorePass (fun _ => [])
            ((List.insertionSort (le1 iso) l).take (i + 1) ++ t)).length)
          (hb2 : i < (scorePass (fun _ => [])
            (List.insertionSort (le1 iso) l)).length),
          (scorePass (fun _ => [])
              ((List.insertionSort (le1 iso) l).take (i + 1) ++ t))[i]
            = (scorePass (fun _ => []) (List.insertionSort (le1 iso) l))[i])
      ∧ (∀ (hb2 : i < (scorePass (fun _ => [])
            (List.insertionSort (le1 iso) l)).length),
          (scorePass (fun _ => []) (List.insertionSort (le1 iso) l))[i]
            ∈ compute_trend_and_flaky iso l
          ∧ (scorePass (fun _ => []) (List.insertionSort (le1 iso) l))[i]
            ∈ compute_trend_and_flaky iso
                ((List.insertionSort (le1 iso) l).take (i + 1) ++ t)) := by
  intro iso l i hi t ht
  have hslen : (List.insertionSort (le1 iso) l).length = l.length :=
    List.length_insertionSort _ _
  have hs : List.Pairwise (le1 iso) (List.insertionSort (le1 iso) l) :=
    List.sorted_insertionSort (le1 iso) l
  have hXlen : i < ((List.insertionSort (le1 iso) l).take (i + 1) ++ t).length := by
    simp [List.length_take]
    omega
  have hsX : List.Pairwise (le1 iso)
      ((List.insertionSort (le1 iso) l).take (i + 1) ++ t) := by
    have hp : List.Pairwise (le1 iso)
        ((List.insertionSort (le1 iso) l).take (i + 1)
          ++ (List.insertionSort (le1 iso) l).drop (i + 1)) := by
      rw [List.take_append_drop]
      exact hs
    rw [List.pairwise_append] at hp
    refine List.pairwise_append.mpr ⟨hp.1, hp.2.1.sublist ht, ?_⟩
    intro a ha b hb
    exact hp.2.2 a ha b (ht.subset hb)
  have hsort : List.insertionSort (le1 iso)
      ((List.insertionSort (le1 iso) l).take (i + 1) ++ t)
      = (List.insertionSort (le1 iso) l).take (i + 1) ++ t :=
    List.Sorted.insertionSort_eq hsX
  have htake : ((List.insertionSort (le1 iso) l).take (i + 1) ++ t).take i
      = (List.insertionSort (le1 iso) l).take i := by
    rw [List.take_append_of_le_length (by simp [List.length_take]; omega),
      List.take_take]
    congr 1
    omega
  have hgetX : ∀ (h1 : i < ((List.insertionSort (le1 iso) l).take (i + 1) ++ t).length),
      ((List.insertionSort (le1 iso) l).take (i + 1) ++ t)[i]
        = (List.insertionSort (le1 iso) l)[i] := by
    intro h1
    rw [List.getElem_append_left (by simp [List.length_take]; omega)]
    exact List.getElem_take _
  refine ⟨hsort, ?_, ?_⟩
  · intro hb1 hb2
    rw [scorePass_getElem _ _ i hXlen hb1, scorePass_getElem _ _ i hi hb2]
    simp only [htake, hgetX hXlen]
  · intro hb2
    constructor
    · rw [compute_trend_and_flaky, List.mem_insertionSort]
      exact List.getElem_mem hb2
    · rw [compute_trend_and_flaky, List.mem_insertionSort, hsort]
      have hb1 : i < (scorePass (fun _ => [])
          ((List.insertionSort (le1 iso) l).take (i + 1) ++ t)).length := by
        rw [scorePass_length]
        exact hXlen
      have he : (scorePass (fun _ => [])
            ((List.insertionSort (le1 iso) l).take (i + 1) ++ t))[i]
          = (scorePass (fun _ => []) (List.insertionSort (le1 iso) l))[i] := by
        rw [scorePass_getElem _ _ i hXlen hb1, scorePass_getElem _ _ i hi hb2]
        simp only [htake, hgetX hXlen]
      rw [← he]
      exact List.getElem_mem hb1

/-- Two same-title records used to instantiate `C2_no_lookahead`. -/
def exC2 : List Row := [mkRow "T" "passed" 0 none, mkRow "T" "failed" 0 none]

/-- Witness for `C2_no_lookahead`: removing the later record of the title
leaves a list the engine re-sorts to itself. -/
theorem C2_no_lookahead_witness :
    List.insertionSort (le1 isoNone)
        ((List.insertionSort (le1 isoNone) exC2).take 1 ++ [])
      = (List.insertionSort (le1 isoNone) exC2).take 1 ++ [] :=
  (C2_no_lookahead isoNone exC2 0 (by decide) [] (List.nil_sublist _)).1

/-! ### C4 -/

/-- C4: the engine's output contract.  For every input: same length; the
same records with every non-derived field unchanged (permutation of the
`Row.base` projections); the output globally sorted by `parse_dt(run_at)`
ascending, where an unparsable `run_at` gets the minimum key `0`; and ties
keep the relative order of the scoring pass (the equal-key filter of the
output equals that of the scored list). -/
theorem C4_output_contract :
    ∀ (iso : String → Option Nat) (l : List Row),
      (compute_trend_and_flaky iso l).length = l.length
      ∧ ((compute_trend_and_flaky iso l).map Row.base).Perm (l.map Row.base)
      ∧ (compute_trend_and_flaky iso l).Pairwise (le2 iso)
      ∧ (∀ k : Nat, (compute_trend_and_flaky iso l).filter
            (fun r => parse_dt iso r.run_at == k)
          = (scorePass (fun _ => []) (List.insertionSort (le1 iso) l)).filter
            (fun r => parse_dt iso r.run_at == k))
      ∧ (∀ s : String, iso (replaceZ s) = none →
          parse_dt iso s = 0 ∧ ∀ s2 : String, parse_dt iso s ≤ parse_dt iso s2) := by
  intro iso l
  refine ⟨?_, ?_, ?_, ?_, ?_⟩
  · simp [compute_trend_and_flaky, scorePass_length]
  · have h1 : ((compute_trend_and_flaky iso l).map Row.base).Perm
        ((scorePass (fun _ => []) (List.insertionSort (le1 iso) l)).map Row.base) :=
      (List.perm_insertionSort (le2 iso) _).map Row.base
    rw [scorePass_map_base] at h1
    exact h1.trans ((List.perm_insertionSort (le1 iso) l).map Row.base)
  · exact List.sorted_insertionSort (le2 iso) _
  · intro k
    apply filter_insertionSort_eqkey
    intro a b ha hb
    have ha2 : parse_dt iso a.run_at = k := by simpa using ha
    have hb2 : parse_dt iso b.run_at = k := by simpa using hb
    unfold le2
    omega
  · intro s hs
    have h0 : parse_dt iso s = 0 := by
      unfold parse_dt
      rw [hs]
      rfl
    exact ⟨h0, fun s2 => by rw [h0]; exact Nat.zero_le _⟩

/-- Witness for `C4_output_contract`: an unparsable timestamp gets the
minimum key. -/
theorem C4_output_contract_witness : parse_dt isoNone "not a timestamp" = 0 :=
  ((C4_output_contract isoNone []).2.2.2.2 "not a timestamp" rfl).1

/-! ### Helper lemmas: per-title decomposition of the scoring pass -/

/-- The scoring fold restricted to a single title's rows. -/
def scoreSeq (h : List Row) : List Row → List Row
  | [] => []
  | r :: rs => scoreRow h r :: scoreSeq (h ++ [scoreRow h r]) rs

theorem scorePass_filter_title (g : String → List Row) (X : List Row) (t : String) :
    (scorePass g X).filter (fun r => r.title == t)
      = scoreSeq (g t) (X.filter (fun r => r.title == t)) := by
  induction X generalizing g with
  | nil => rfl
  | cons x xs ih =>
    rw [scorePass_cons, List.filter_cons, List.filter_cons]
    by_cases hx : x.title = t
    · have hb1 : ((scoreRow (g x.title) x).title == t) = true := by
        simp [scoreRow_title, hx]
      have hb2 : (x.title == t) = true := by simp [hx]
      rw [if_pos hb1, if_pos hb2]
      subst hx
      rw [scoreSeq, ih]
      congr 1
      rw [if_pos rfl]
    · have hb1 : ¬ ((scoreRow (g x.title) x).title == t) = true := by
        simp [scoreRow_title, hx]
      have hb2 : ¬ (x.title == t) = true := by simp [hx]
      rw [if_neg hb1, if_neg hb2, ih]
      congr 1
      rw [if_neg (fun hc => hx hc.symm)]

theorem scoreSeq_idem {h₁ h₂ : List Row} (σ : List Row)
    (hh : h₁.map Row.sd = h₂.map Row.sd) :
    scoreSeq h₁ (scoreSeq h₂ σ) = scoreSeq h₂ σ := by
  induction σ generalizing h₁ h₂ with
  | nil => rfl
  | cons r rs ih =>
    rw [scoreSeq, scoreSeq]
    have he : scoreRow h₁ (scoreRow h₂ r) = scoreRow h₂ r := by
      rw [scoreRow_scoreRow, scoreRow_congr r hh]
    rw [he]
    congr 1
    apply ih
    simp [hh, scoreRow_sd]

theorem map_title_of_map_base {l₁ l₂ : List Row}
    (h : l₁.map Row.base = l₂.map Row.base) :
    l₁.map (fun r => r.title) = l₂.map (fun r => r.title) := by
  have h1 : ∀ l : List Row, l.map (fun r => r.title)
      = (l.map Row.base).map (fun b => b.title) := by
    intro l
    rw [List.map_map]
    rfl
  rw [h1, h1, h]

theorem eq_of_title_filters (X Y : List Row)
    (htitle : X.map (fun r => r.title) = Y.map (fun r => r.title))
    (h : ∀ t, X.filter (fun r => r.title == t) = Y.filter (fun r => r.title == t)) :
    X = Y := by
  induction X generalizing Y with
  | nil =>
    cases Y with
    | nil => rfl
    | cons y ys => simp at htitle
  | cons x xs ih =>
    cases Y with
    | nil => simp at htitle
    | cons y ys =>
      simp only [List.map_cons, List.cons.injEq] at htitle
      have hx := h x.title
      rw [List.filter_cons, List.filter_cons, if_pos (by simp),
        if_pos (by simp [htitle.1])] at hx
      have hxy : x = y := (List.cons.injEq _ _ _ _ ▸ hx).1
      subst hxy
      congr 1
      apply ih ys htitle.2
      intro t
      have ht := h t
      rw [List.filter_cons, List.filter_cons] at ht
      by_cases hc : x.title = t
      · rw [if_pos (by simp [hc]), if_pos (by simp [hc])] at ht
        exact (List.cons.injEq _ _ _ _ ▸ ht).2
      · rw [if_neg (by simp [hc]), if_neg (by simp [hc])] at ht
        exact ht

theorem pairwise_le1_transfer (iso : String → Option Nat) {l₁ l₂ : List Row}
    (h : l₁.map Row.base = l₂.map Row.base)
    (hp : l₁.Pairwise (le1 iso)) : l₂.Pairwise (le1 iso) := by
  have h1 : (l₁.map Row.base).Pairwise (fun u v : BaseRow =>
      u.title < v.title ∨ (u.title = v.title
        ∧ parse_dt iso u.run_at ≤ parse_dt iso v.run_at)) :=
    List.pairwise_map.mpr (hp.imp (fun {a b} hab => hab))
  rw [h] at h1
  exact (List.pairwise_map.mp h1).imp (fun {a b} hab => hab)

theorem le2_of_le1_of_title_eq (iso : String → Option Nat) {a b : Row}
    (ht : a.title = b.title) (hab : le1 iso a b) : le2 iso a b := by
  rcases hab with h | ⟨_, h⟩
  · rw [ht] at h
    exact absurd h (lt_irrefl _)
  · exact h

/-! ### C3 -/

/-- C3: the engine is idempotent — re-running `compute_trend_and_flaky` on
its own output (with no new records) returns exactly the same list, so
every record keeps identical derived fields; scoring is a function of the
record set's content and chronological order, not of invocation history. -/
theorem C3_engine_idempotent :
    ∀ (iso : String → Option Nat) (l : List Row),
      compute_trend_and_flaky iso (compute_trend_and_flaky iso l)
        = compute_trend_and_flaky iso l := by
  intro iso l
  unfold compute_trend_and_flaky
  have hs_sorted : (List.insertionSort (le1 iso) l).Pairwise (le1 iso) :=
    List.sorted_insertionSort _ _
  generalize hgs : List.insertionSort (le1 iso) l = s
  rw [hgs] at hs_sorted
  have hm_base : (scorePass (fun _ => []) s).map Row.base = s.map Row.base :=
    scorePass_map_base _ _
  have hm_sorted : (scorePass (fun _ => []) s).Pairwise (le1 iso) :=
    pairwise_le1_transfer iso hm_base.symm hs_sorted
  generalize hgm : scorePass (fun _ => []) s = m
  rw [hgm] at hm_base hm_sorted
  have hA : ∀ t, (List.insertionSort (le2 iso) m).filter (fun r => r.title == t)
      = m.filter (fun r => r.title == t) := by
    intro t
    apply filter_insertionSort
    have hp1 : (m.filter (fun r => r.title == t)).Pairwise (le1 iso) :=
      List.Pairwise.sublist (List.filter_sublist m) hm_sorted
    apply List.Pairwise.imp_of_mem ?_ hp1
    intro a b ha hb hab
    have ha2 : a.title = t := by simpa using (List.mem_filter.mp ha).2
    have hb2 : b.title = t := by simpa using (List.mem_filter.mp hb).2
    exact le2_of_le1_of_title_eq iso (ha2.trans hb2.symm) hab
  have hK : ∀ k : Nat, (List.insertionSort (le2 iso) m).filter
        (fun r => parse_dt iso r.run_at == k)
      = m.filter (fun r => parse_dt iso r.run_at == k) := by
    intro k
    apply filter_insertionSort_eqkey
    intro a b ha hb
    have ha2 : parse_dt iso a.run_at = k := by simpa using ha
    have hb2 : parse_dt iso b.run_at = k := by simpa using hb
    show parse_dt iso a.run_at ≤ parse_dt iso b.run_at
    omega
  have hout_sorted : (List.insertionSort (le2 iso) m).Pairwise (le2 iso) :=
    List.sorted_insertionSort _ _
  generalize hgo : List.insertionSort (le2 iso) m = out
  rw [hgo] at hA hK hout_sorted
  have hB : ∀ t, (List.insertionSort (le1 iso) out).filter (fun r => r.title == t)
      = m.filter (fun r => r.title == t) := by
    intro t
    rw [← hA t]
    apply filter_insertionSort
    rw [hA t]
    exact List.Pairwise.sublist (List.filter_sublist m) hm_sorted
  have hPfix : scorePass (fun _ => []) (List.insertionSort (le1 iso) out)
      = List.insertionSort (le1 iso) out := by
    apply eq_of_title_filters
    · exact map_title_of_map_base (scorePass_map_base _ _)
    · intro t
      rw [scorePass_filter_title, hB t, ← hgm, scorePass_filter_title]
      exact scoreSeq_idem _ rfl
  rw [hPfix]
  apply eq_of_sorted_of_filter_eq (fun r => parse_dt iso r.run_at)
  · exact List.sorted_insertionSort (le2 iso) (List.insertionSort (le1 iso) out)
  · exact hout_sorted
  · intro k
    have h1 : (List.insertionSort (le2 iso) (List.insertionSort (le1 iso) out)).filter
          (fun r => parse_dt iso r.run_at == k)
        = (List.insertionSort (le1 iso) out).filter
          (fun r => parse_dt iso r.run_at == k) := by
      apply filter_insertionSort_eqkey
      intro a b ha hb
      have ha2 : parse_dt iso a.run_at = k := by simpa using ha
      have hb2 : parse_dt iso b.run_at = k := by simpa using hb
      show parse_dt iso a.run_at ≤ parse_dt iso b.run_at
      omega
    have h2 : (List.insertionSort (le1 iso) out).filter
          (fun r => parse_dt iso r.run_at == k)
        = out.filter (fun r => parse_dt iso r.run_at == k) := by
      apply filter_insertionSort
      rw [hK k]
      exact List.Pairwise.sublist (List.filter_sublist m) hm_sorted
    rw [h1, h2]
